import Mathlib

/-!
Verification of the BigChurn subset-selection pipeline
(source: Generate_Subset_By_Column_Spark.ipynb).

The notebook reads one tabular file per period, coerces the label column to
0/1 via boolean casting, unions each new period with the accumulated table,
groups by identifier aggregating the label with max and the presence count
with sum, filters by a minimum period count, computes per-class sampling
fractions, and draws a seeded stratified sample.

The shallow embedding below models a Spark DataFrame of the merge stage as a
list of rows; after each groupBy the accumulated table is an association
list keyed by identifier (one entry per key, in order of first occurrence).
Numeric columns are naturals, the ratio-valued sampling fractions rationals.
-/

namespace BigChurn

/-- Identifiers are strings (the ID column of the source data). -/
abbrev Ident := String

/-- A raw input row after the Period Reader: (identifier, coerced label).
Labels here are the already-coerced integers; the merge claims assume them
in \x7b0,1\x7d. -/
abbrev Row := Ident × ℕ

/-- A row of the accumulated table: (identifier, label, period_count),
mirroring the merge_schema of the notebook. -/
abbrev Entry := Ident × ℕ × ℕ

/-- Labels of the rows of a given identifier, in order. -/
def rowsFor (rows : List Row) (id : Ident) : List ℕ :=
  (rows.filter (fun r => r.1 == id)).map (fun r => r.2)

/-- Aggregated label of an identifier over a list of raw rows:
max of all its labels (0 when absent). -/
def maxLabel (rows : List Row) (id : Ident) : ℕ :=
  (rowsFor rows id).foldr max 0

/-- Number of row occurrences of an identifier in a list of raw rows. -/
def rowCount (rows : List Row) (id : Ident) : ℕ :=
  (rowsFor rows id).length

/-- The (label, period_count) pairs carried by the entries of a given
identifier inside a unioned table. -/
def entsFor (l : List Entry) (id : Ident) : List (ℕ × ℕ) :=
  (l.filter (fun e => e.1 == id)).map (fun e => e.2)

/-- max(label_column) over the group of an identifier, as in the
agg(max(label)) call of the notebook. -/
def aggMax (l : List Entry) (id : Ident) : ℕ :=
  (entsFor l id).foldr (fun v a => max v.1 a) 0

/-- sum(period_count) over the group of an identifier, as in the
agg(sum(period_count)) call of the notebook. -/
def aggSum (l : List Entry) (id : Ident) : ℕ :=
  (entsFor l id).foldr (fun v a => v.2 + a) 0

/-- The group keys of a unioned table, in order of first occurrence. -/
def keysOf (l : List Entry) : List Ident :=
  (l.map (fun e => e.1)).dedup

/-- groupBy(id).agg(max(label), sum(period_count)): one output entry per
distinct identifier. -/
def groupAgg (l : List Entry) : List Entry :=
  (keysOf l).map (fun id => (id, aggMax l id, aggSum l id))

/-- withColumn(period_count, lit(1)): each raw row of a period enters the
union carrying period_count = 1. -/
def tagPeriod (p : List Row) : List Entry :=
  p.map (fun r => (r.1, r.2, 1))

/-- One transition of the Merge-Aggregate Accumulator: the new period's
tagged rows are unioned (new data first, as in the notebook) with the
accumulated table, then grouped and aggregated. -/
def mergeStep (t : List Entry) (p : List Row) : List Entry :=
  groupAgg (tagPeriod p ++ t)

/-- Folding a whole sequence of periods through the accumulator, starting
from the empty table (spark.createDataFrame([], merge_schema)). -/
def foldPeriods (ps : List (List Row)) : List Entry :=
  ps.foldl mergeStep []

/-- All raw rows of a period sequence, concatenated in order. -/
def allRows (ps : List (List Row)) : List Row :=
  ps.foldr (fun p acc => p ++ acc) []

/-- Number of periods whose file contains at least one row for the given
identifier. -/
def periodsContaining (ps : List (List Row)) (id : Ident) : ℕ :=
  (ps.filter (fun p => p.any (fun r => r.1 == id))).length

/-- Eligibility Filter: df_merged.filter(period_count >= min_periods). -/
def eligFilter (t : List Entry) (minPeriods : ℕ) : List Entry :=
  t.filter (fun e => decide (minPeriods ≤ e.2.2))

/-- Python division: raises ZeroDivisionError when the divisor is zero,
modelled as returning none. -/
def pydiv (a b : ℚ) : Option ℚ :=
  if b = 0 then none else some (a / b)

/-- n_total: count of the filtered table. -/
def nTotal (t : List Entry) : ℕ := t.length

/-- n_positive: count of rows of the filtered table with label > 0. -/
def nPositive (t : List Entry) : ℕ :=
  (t.filter (fun e => decide (0 < e.2.1))).length

/-- The Sampling-Fraction Calculator of the notebook:
f_positive = n_sub_ids * p_sub_positive / n_positive, then
f_negative = n_sub_ids * (1 - p_sub_positive) / (n_total - n_positive);
a zero divisor raises (none), as in Python. -/
def fracCalc (t : List Entry) (nSubIds : ℕ) (pSubPositive : ℚ) :
    Option (ℚ × ℚ) :=
  match pydiv ((nSubIds : ℚ) * pSubPositive) ((nPositive t : ℚ)) with
  | none => none
  | some fPos =>
    match pydiv ((nSubIds : ℚ) * (1 - pSubPositive))
        ((nTotal t : ℚ) - (nPositive t : ℚ)) with
    | none => none
    | some fNeg => some (fPos, fNeg)

/-- Python list indexing, with negative-index support; none models the
IndexError raised on an out-of-range index. -/
def pyGet (l : List String) (i : ℤ) : Option String :=
  if 0 ≤ i then l[i.toNat]?
  else if 0 ≤ i + l.length then l[(i + l.length).toNat]?
  else none

/-- calendar.month_abbr, the suffix lookup table of the notebook: entry 0
is the empty string, entries 1 to 12 the abbreviated month names. -/
def month_abbr : List String :=
  ["", "Jan", "Feb", "Mar", "Apr", "May", "Jun", "Jul", "Aug", "Sep",
   "Oct", "Nov", "Dec"]

/-- file_path of the notebook (the local project path). -/
def file_path : String := "/project_data/data_asset"

/-- file_base of the notebook (the constant part of the filenames). -/
def file_base : String := "customers_"

/-- file_type of the notebook (the extension). -/
def file_type : String := ".csv"

/-- Whether a string begins with the path separator (kernel-friendly
rendering of startswith used by os.path.join). -/
def headIsSlash (s : String) : Bool :=
  match s.data with
  | [] => false
  | c :: _ => c == '/'

/-- Whether a string ends with the path separator. -/
def lastIsSlash (s : String) : Bool :=
  match s.data.getLast? with
  | none => false
  | some c => c == '/'

/-- os.path.join for one component, as exercised by full_filename. -/
def ospathJoin (a b : String) : String :=
  if headIsSlash b then b
  else if a = "" then a ++ b
  else if lastIsSlash a then a ++ b
  else a ++ "/" ++ b

/-- The Filename Generator full_filename of the notebook, at its default
configuration: os.path.join(fpath, fbase + suff[index + 1] + ftype), where
the shifted lookup suff[index + 1] accounts for the base-1 month table.
A failed lookup is the IndexError. -/
def full_filename (index : ℤ) : Option String :=
  (pyGet month_abbr (index + 1)).map
    (fun s => ospathJoin file_path (file_base ++ s ++ file_type))

/-- Modelled from Spark library semantics (the cast is a Spark builtin, not
code of this repository): the string tokens cast(BooleanType) accepts as
true, compared after trimming and lowercasing. -/
def trueTokens : List String := ["t", "true", "y", "yes", "1"]

/-- Modelled from Spark library semantics: the tokens accepted as false. -/
def falseTokens : List String := ["f", "false", "n", "no", "0"]

/-- ASCII whitespace, for the trimming the cast applies before matching. -/
def isSpaceChar (c : Char) : Bool :=
  c == ' ' || c == '\t' || c == '\n' || c == '\r'

/-- ASCII lowercasing of one character. -/
def lowerChar (c : Char) : Char :=
  if 'A' ≤ c ∧ c ≤ 'Z' then Char.ofNat (c.toNat + 32) else c

/-- The trimmed, lowercased form of a token, as the Spark boolean cast
normalizes its input before comparing with the accepted tokens. -/
def normToken (s : String) : String :=
  String.mk ((((s.data.dropWhile isSpaceChar).reverse.dropWhile
    isSpaceChar).reverse).map lowerChar)

/-- Modelled from Spark library semantics: cast(StringType to BooleanType)
yields true or false on the recognized tokens and null on all others. -/
def sparkStrToBool (s : String) : Option Bool :=
  if normToken s ∈ trueTokens then some true
  else if normToken s ∈ falseTokens then some false
  else none

/-- The label coercion of the merge cell:
col(label_column).cast(boolean).cast(integer); casting null yields null. -/
def coerceLabel (s : String) : Option ℤ :=
  (sparkStrToBool s).map (fun b => if b then 1 else 0)

/-- A row as seen by the Stratified Sampler: identifier and label column
value; the label may be null after a failed coercion. -/
abbrev SRow := Ident × Option ℤ

/-- Lookup of a class label in the per-class fraction mapping. -/
def lookupFrac (v : ℤ) : List (ℤ × ℚ) → Option ℚ
  | [] => none
  | (k, f) :: rest => if v = k then some f else lookupFrac v rest

/-- Modelled from Spark library semantics: the seeded per-row pseudorandom
draw in [0, 1), a pure function of the seed and the row position. -/
def prand (seed : ℕ) (i : ℕ) : ℚ :=
  (((seed + (i + 1) * 2654435761) % 1000 : ℕ) : ℚ) / 1000

/-- Whether the sampler keeps one (position, row) pair: the label must be
non-null, its class must appear in the fraction mapping, and the seeded
draw must fall below the fraction of that class. -/
def keepRow (fractions : List (ℤ × ℚ)) (seed : ℕ) (p : ℕ × SRow) : Bool :=
  match p.2.2 with
  | none => false
  | some v =>
    match lookupFrac v fractions with
    | none => false
    | some f => decide (prand seed p.1 < f)

/-- Modelled from Spark library semantics: df.sampleBy(label, fractions,
seed) keeps a row iff its class label has a fraction f in the mapping and
the seeded draw for that row is below f; classes absent from the mapping
are dropped entirely, as are null labels. -/
def sampleBy (t : List SRow) (fractions : List (ℤ × ℚ)) (seed : ℕ) :
    List SRow :=
  (t.enum.filter (keepRow fractions seed)).map (fun p => p.2)

/-- The periods of the end-to-end scenario of the spec, first period. -/
def period1 : List Row := [("A", 0), ("B", 1), ("A", 1)]

/-- Second period of the end-to-end scenario. -/
def period2 : List Row := [("A", 0)]

/-- Third period of the end-to-end scenario. -/
def period3 : List Row := [("B", 0), ("C", 0)]

/-- The three-period sequence of the end-to-end scenario of the spec. -/
def scenarioPeriods : List (List Row) := [period1, period2, period3]

/-- The accumulated-table invariant: the table has one entry per identifier
(no duplicate keys) and the entry of an identifier carries the max label and
the row-occurrence count of that identifier over the raw rows seen so far. -/
structure IsAccum (rows : List Row) (t : List Entry) : Prop where
  nodupKeys : (t.map (fun e => e.1)).Nodup
  mem_iff : ∀ id l c, ((id, l, c) ∈ t) ↔
    (0 < rowCount rows id ∧ l = maxLabel rows id ∧ c = rowCount rows id)

theorem rowsFor_append (u v : List Row) (id : Ident) :
    rowsFor (u ++ v) id = rowsFor u id ++ rowsFor v id := by
  simp [rowsFor]

theorem maxLabel_append (u v : List Row) (id : Ident) :
    maxLabel (u ++ v) id = max (maxLabel u id) (maxLabel v id) := by
  unfold maxLabel
  rw [rowsFor_append, List.foldr_append]
  generalize rowsFor u id = a
  generalize rowsFor v id = b
  induction a with
  | nil => simp
  | cons x xs ih => simp [ih, Nat.max_assoc]

theorem rowCount_append (u v : List Row) (id : Ident) :
    rowCount (u ++ v) id = rowCount u id + rowCount v id := by
  simp [rowCount, rowsFor_append]

theorem rowCount_pos_iff (rows : List Row) (id : Ident) :
    0 < rowCount rows id ↔ ∃ r ∈ rows, r.1 = id := by
  unfold rowCount rowsFor
  simp [List.length_pos_iff_exists_mem, List.mem_filter]

theorem maxLabel_of_count_zero (rows : List Row) (id : Ident)
    (h : rowCount rows id = 0) : maxLabel rows id = 0 := by
  unfold rowCount at h
  rw [List.length_eq_zero] at h
  unfold maxLabel
  rw [h]
  rfl

theorem entsFor_append (u v : List Entry) (id : Ident) :
    entsFor (u ++ v) id = entsFor u id ++ entsFor v id := by
  simp [entsFor]

theorem entsFor_tagPeriod (p : List Row) (id : Ident) :
    entsFor (tagPeriod p) id = (rowsFor p id).map (fun l => (l, 1)) := by
  induction p with
  | nil => simp [entsFor, tagPeriod, rowsFor]
  | cons r rs ih =>
    by_cases h : r.1 = id
    · simp [entsFor, tagPeriod, rowsFor, h, List.filter_cons] at ih ⊢
      exact ih
    · simp [entsFor, tagPeriod, rowsFor, h, List.filter_cons] at ih ⊢
      exact ih

theorem aggMax_append (u v : List Entry) (id : Ident) :
    aggMax (u ++ v) id = max (aggMax u id) (aggMax v id) := by
  unfold aggMax
  rw [entsFor_append, List.foldr_append]
  generalize entsFor u id = a
  generalize entsFor v id = b
  induction a with
  | nil => simp
  | cons x xs ih => simp [ih, Nat.max_assoc]

theorem aggSum_append (u v : List Entry) (id : Ident) :
    aggSum (u ++ v) id = aggSum u id + aggSum v id := by
  unfold aggSum
  rw [entsFor_append, List.foldr_append]
  generalize entsFor u id = a
  generalize entsFor v id = b
  induction a with
  | nil => simp
  | cons x xs ih => simp [ih, Nat.add_assoc]

theorem aggMax_tagPeriod (p : List Row) (id : Ident) :
    aggMax (tagPeriod p) id = maxLabel p id := by
  unfold aggMax maxLabel
  rw [entsFor_tagPeriod]
  generalize rowsFor p id = a
  induction a with
  | nil => rfl
  | cons x xs ih => simp [ih]

theorem aggSum_tagPeriod (p : List Row) (id : Ident) :
    aggSum (tagPeriod p) id = rowCount p id := by
  unfold aggSum rowCount
  rw [entsFor_tagPeriod]
  generalize rowsFor p id = a
  induction a with
  | nil => rfl
  | cons x xs ih =>
    simp only [List.map_cons, List.foldr_cons, ih]
    show 1 + xs.length = (x :: xs).length
    simp [Nat.add_comm]

theorem mem_keysOf (l : List Entry) (id : Ident) :
    id ∈ keysOf l ↔ ∃ e ∈ l, e.1 = id := by
  unfold keysOf
  rw [List.mem_dedup, List.mem_map]

theorem mem_groupAgg (l : List Entry) (e : Entry) :
    e ∈ groupAgg l ↔
      e.1 ∈ keysOf l ∧ e.2.1 = aggMax l e.1 ∧ e.2.2 = aggSum l e.1 := by
  unfold groupAgg
  rw [List.mem_map]
  constructor
  · rintro ⟨k, hk, rfl⟩
    exact ⟨hk, rfl, rfl⟩
  · rintro ⟨hk, h1, h2⟩
    refine ⟨e.1, hk, ?_⟩
    rw [← h1, ← h2]

theorem keys_groupAgg (l : List Entry) :
    (groupAgg l).map (fun e => e.1) = keysOf l := by
  unfold groupAgg
  rw [List.map_map]
  generalize keysOf l = ks
  induction ks with
  | nil => rfl
  | cons k ks ih => simp [ih]

theorem nodupKeys_groupAgg (l : List Entry) :
    ((groupAgg l).map (fun e => e.1)).Nodup := by
  rw [keys_groupAgg]
  exact List.nodup_dedup _

theorem filter_key_eq_singleton (t : List Entry)
    (hnd : (t.map (fun e => e.1)).Nodup) (e : Entry) (he : e ∈ t)
    (id : Ident) (hid : e.1 = id) :
    t.filter (fun x => x.1 == id) = [e] := by
  induction t with
  | nil => cases he
  | cons a tl ih =>
    rw [List.map_cons, List.nodup_cons] at hnd
    rcases List.mem_cons.mp he with rfl | hmem
    · rw [List.filter_cons, if_pos (by simp [hid])]
      have hnil : tl.filter (fun x => x.1 == id) = [] := by
        rw [List.filter_eq_nil_iff]
        intro b hb hbeq
        rw [beq_iff_eq] at hbeq
        exact hnd.1 (hid ▸ hbeq ▸ List.mem_map.mpr ⟨b, hb, rfl⟩)
      rw [hnil]
    · have hne : ¬(a.1 = id) := by
        intro hEq
        exact hnd.1 (hEq ▸ hid ▸ List.mem_map.mpr ⟨e, hmem, rfl⟩)
      rw [List.filter_cons, if_neg (by simp [hne])]
      exact ih hnd.2 hmem

theorem entsFor_of_isAccum {rows : List Row} {t : List Entry}
    (h : IsAccum rows t) (id : Ident) :
    entsFor t id = if 0 < rowCount rows id
      then [(maxLabel rows id, rowCount rows id)] else [] := by
  by_cases hpos : 0 < rowCount rows id
  · rw [if_pos hpos]
    have hmem : (id, maxLabel rows id, rowCount rows id) ∈ t :=
      (h.mem_iff id _ _).mpr ⟨hpos, rfl, rfl⟩
    have hs := filter_key_eq_singleton t h.nodupKeys _ hmem id rfl
    unfold entsFor
    rw [hs]
    rfl
  · rw [if_neg hpos]
    unfold entsFor
    have hnil : t.filter (fun x => x.1 == id) = [] := by
      rw [List.filter_eq_nil_iff]
      intro a ha hbeq
      rw [beq_iff_eq] at hbeq
      have hmem := (h.mem_iff a.1 a.2.1 a.2.2).mp ha
      exact hpos (hbeq ▸ hmem.1)
    rw [hnil]
    rfl

theorem aggMax_of_isAccum {rows : List Row} {t : List Entry}
    (h : IsAccum rows t) (id : Ident) :
    aggMax t id = maxLabel rows id := by
  have he := entsFor_of_isAccum h id
  by_cases hpos : 0 < rowCount rows id
  · rw [if_pos hpos] at he
    unfold aggMax
    rw [he]
    simp
  · rw [if_neg hpos] at he
    unfold aggMax
    rw [he, maxLabel_of_count_zero _ _ (Nat.eq_zero_of_not_pos hpos)]
    rfl

theorem aggSum_of_isAccum {rows : List Row} {t : List Entry}
    (h : IsAccum rows t) (id : Ident) :
    aggSum t id = rowCount rows id := by
  have he := entsFor_of_isAccum h id
  by_cases hpos : 0 < rowCount rows id
  · rw [if_pos hpos] at he
    unfold aggSum
    rw [he]
    simp
  · rw [if_neg hpos] at he
    unfold aggSum
    rw [he, Nat.eq_zero_of_not_pos hpos]
    rfl

theorem aggMax_union {rows : List Row} {t : List Entry}
    (h : IsAccum rows t) (p : List Row) (id : Ident) :
    aggMax (tagPeriod p ++ t) id = maxLabel (p ++ rows) id := by
  rw [aggMax_append, aggMax_tagPeriod, maxLabel_append, aggMax_of_isAccum h]

theorem aggSum_union {rows : List Row} {t : List Entry}
    (h : IsAccum rows t) (p : List Row) (id : Ident) :
    aggSum (tagPeriod p ++ t) id = rowCount (p ++ rows) id := by
  rw [aggSum_append, aggSum_tagPeriod, rowCount_append, aggSum_of_isAccum h]

theorem mem_keysOf_union {rows : List Row} {t : List Entry}
    (h : IsAccum rows t) (p : List Row) (id : Ident) :
    id ∈ keysOf (tagPeriod p ++ t) ↔ 0 < rowCount (p ++ rows) id := by
  rw [mem_keysOf, rowCount_append]
  constructor
  · rintro ⟨e, he, rfl⟩
    rcases List.mem_append.mp he with h1 | h2
    · rcases List.mem_map.mp h1 with ⟨r, hr, rfl⟩
      have : 0 < rowCount p r.1 := (rowCount_pos_iff p r.1).mpr ⟨r, hr, rfl⟩
      show 0 < rowCount p r.1 + rowCount rows r.1
      omega
    · have hmem := (h.mem_iff e.1 e.2.1 e.2.2).mp h2
      omega
  · intro hpos
    by_cases hp : 0 < rowCount p id
    · rcases (rowCount_pos_iff p id).mp hp with ⟨r, hr, rfl⟩
      exact ⟨(r.1, r.2, 1), List.mem_append.mpr
        (Or.inl (List.mem_map.mpr ⟨r, hr, rfl⟩)), rfl⟩
    · have hr : 0 < rowCount rows id := by omega
      exact ⟨(id, maxLabel rows id, rowCount rows id),
        List.mem_append.mpr (Or.inr ((h.mem_iff id _ _).mpr ⟨hr, rfl, rfl⟩)), rfl⟩

theorem mergeStep_isAccum {rows : List Row} {t : List Entry}
    (h : IsAccum rows t) (p : List Row) :
    IsAccum (p ++ rows) (mergeStep t p) where
  nodupKeys := nodupKeys_groupAgg _
  mem_iff id l c := by
    unfold mergeStep
    rw [mem_groupAgg]
    simp only [mem_keysOf_union h, aggMax_union h, aggSum_union h]

theorem isAccum_nil : IsAccum [] [] where
  nodupKeys := List.nodup_nil
  mem_iff id l c := by simp [rowCount, rowsFor]

theorem isAccum_congr (r1 r2 : List Row) (t : List Entry)
    (hc : ∀ id, rowCount r1 id = rowCount r2 id)
    (hm : ∀ id, maxLabel r1 id = maxLabel r2 id)
    (h : IsAccum r1 t) : IsAccum r2 t where
  nodupKeys := h.nodupKeys
  mem_iff id l c := by rw [← hc id, ← hm id]; exact h.mem_iff id l c

theorem allRows_cons (p : List Row) (ps : List (List Row)) :
    allRows (p :: ps) = p ++ allRows ps := rfl

theorem foldl_isAccum (ps : List (List Row)) :
    ∀ rows t, IsAccum rows t →
      IsAccum (allRows ps ++ rows) (ps.foldl mergeStep t) := by
  induction ps with
  | nil =>
    intro rows t h
    simpa [allRows] using h
  | cons p ps ih =>
    intro rows t h
    have h2 := ih (p ++ rows) (mergeStep t p) (mergeStep_isAccum h p)
    refine isAccum_congr _ _ _ (fun id => ?_) (fun id => ?_) h2
    · rw [allRows_cons]
      rw [rowCount_append, rowCount_append, rowCount_append, rowCount_append]
      omega
    · rw [allRows_cons]
      rw [maxLabel_append, maxLabel_append, maxLabel_append, maxLabel_append]
      rw [Nat.max_left_comm, Nat.max_assoc]

theorem foldPeriods_isAccum (ps : List (List Row)) :
    IsAccum (allRows ps) (foldPeriods ps) := by
  have h := foldl_isAccum ps [] [] isAccum_nil
  unfold foldPeriods
  simpa using h

theorem foldr_max_perm {l1 l2 : List ℕ} (h : l1.Perm l2) :
    l1.foldr max 0 = l2.foldr max 0 := by
  induction h with
  | nil => rfl
  | cons x _ ih => simp [ih]
  | swap x y l => simp [Nat.max_left_comm]
  | trans _ _ ih1 ih2 => rw [ih1, ih2]

theorem rowsFor_perm {r1 r2 : List Row} (h : r1.Perm r2) (id : Ident) :
    (rowsFor r1 id).Perm (rowsFor r2 id) := by
  unfold rowsFor
  exact (h.filter (fun r => r.1 == id)).map (fun r => r.2)

theorem rowCount_perm {r1 r2 : List Row} (h : r1.Perm r2) (id : Ident) :
    rowCount r1 id = rowCount r2 id :=
  (rowsFor_perm h id).length_eq

theorem maxLabel_perm {r1 r2 : List Row} (h : r1.Perm r2) (id : Ident) :
    maxLabel r1 id = maxLabel r2 id :=
  foldr_max_perm (rowsFor_perm h id)

theorem allRows_perm {ps ps' : List (List Row)} (h : ps.Perm ps') :
    (allRows ps).Perm (allRows ps') := by
  induction h with
  | nil => exact List.Perm.refl _
  | cons p _ ih =>
    rw [allRows_cons, allRows_cons]
    exact ih.append_left p
  | swap x y l =>
    rw [allRows_cons, allRows_cons, allRows_cons, allRows_cons,
      ← List.append_assoc, ← List.append_assoc]
    exact List.Perm.append_right _ List.perm_append_comm
  | trans _ _ ih1 ih2 => exact ih1.trans ih2

theorem entries_nodup {rows : List Row} {t : List Entry}
    (h : IsAccum rows t) : t.Nodup :=
  List.Nodup.of_map _ h.nodupKeys

theorem mem_foldPeriods (ps : List (List Row)) (e : Entry) :
    e ∈ foldPeriods ps ↔
      (0 < rowCount (allRows ps) e.1 ∧ e.2.1 = maxLabel (allRows ps) e.1 ∧
        e.2.2 = rowCount (allRows ps) e.1) :=
  (foldPeriods_isAccum ps).mem_iff e.1 e.2.1 e.2.2

theorem foldr_max_pos_iff (l : List ℕ) :
    0 < l.foldr max 0 ↔ ∃ x ∈ l, 0 < x := by
  induction l with
  | nil => simp
  | cons x xs ih =>
    rw [List.foldr_cons]
    constructor
    · intro h
      rcases lt_max_iff.mp h with h1 | h2
      · exact ⟨x, List.mem_cons_self x xs, h1⟩
      · rcases ih.mp h2 with ⟨y, hy, hposy⟩
        exact ⟨y, List.mem_cons_of_mem _ hy, hposy⟩
    · rintro ⟨y, hy, hposy⟩
      rcases List.mem_cons.mp hy with rfl | hmem
      · exact lt_max_iff.mpr (Or.inl hposy)
      · exact lt_max_iff.mpr (Or.inr (ih.mpr ⟨y, hmem, hposy⟩))

theorem mem_rowsFor (rows : List Row) (id : Ident) (x : ℕ) :
    x ∈ rowsFor rows id ↔ ∃ r ∈ rows, r.1 = id ∧ r.2 = x := by
  unfold rowsFor
  simp only [List.mem_map, List.mem_filter, beq_iff_eq]
  constructor
  · rintro ⟨r, ⟨hr, h1⟩, h2⟩
    exact ⟨r, hr, h1, h2⟩
  · rintro ⟨r, hr, h1, h2⟩
    exact ⟨r, ⟨hr, h1⟩, h2⟩

theorem le_foldr_max (l : List ℕ) (x : ℕ) (hx : x ∈ l) :
    x ≤ l.foldr max 0 := by
  induction l with
  | nil => cases hx
  | cons y ys ih =>
    rcases List.mem_cons.mp hx with rfl | hmem
    · exact le_max_left _ _
    · exact le_trans (ih hmem) (le_max_right _ _)

theorem foldr_max_le (l : List ℕ) (b : ℕ) (h : ∀ x ∈ l, x ≤ b) :
    l.foldr max 0 ≤ b := by
  induction l with
  | nil => exact Nat.zero_le b
  | cons y ys ih =>
    rw [List.foldr_cons]
    exact max_le (h y (List.mem_cons_self y ys))
      (ih (fun x hx => h x (List.mem_cons_of_mem y hx)))

theorem any_key_iff (p : List Row) (id : Ident) :
    (p.any (fun r => r.1 == id)) = true ↔ 0 < rowCount p id := by
  rw [rowCount_pos_iff, List.any_eq_true]
  simp only [beq_iff_eq]

theorem rowCount_eq_periodsContaining (ps : List (List Row)) (id : Ident)
    (hone : ∀ p ∈ ps, rowCount p id ≤ 1) :
    rowCount (allRows ps) id = periodsContaining ps id := by
  induction ps with
  | nil => rfl
  | cons p ps ih =>
    rw [allRows_cons, rowCount_append]
    unfold periodsContaining
    rw [List.filter_cons]
    by_cases h : 0 < rowCount p id
    · rw [if_pos (by rw [any_key_iff]; exact h)]
      have h1 : rowCount p id = 1 :=
        Nat.le_antisymm (hone p (List.mem_cons_self p ps)) h
      have h2 := ih (fun q hq => hone q (List.mem_cons_of_mem p hq))
      unfold periodsContaining at h2
      rw [List.length_cons, h1, h2]
      omega
    · rw [if_neg (by rw [any_key_iff]; exact h)]
      have h1 : rowCount p id = 0 := Nat.eq_zero_of_not_pos h
      have h2 := ih (fun q hq => hone q (List.mem_cons_of_mem p hq))
      unfold periodsContaining at h2
      rw [h1, h2]
      omega

theorem rowCount_le_length (p : List Row) (id : Ident) :
    rowCount p id ≤ p.length := by
  unfold rowCount rowsFor
  rw [List.length_map]
  exact List.length_filter_le _ _

theorem month_abbr_length : month_abbr.length = 13 := rfl

theorem pyGet_eq_none_iff (l : List String) (j : ℤ) :
    pyGet l j = none ↔ (j < -(l.length : ℤ) ∨ (l.length : ℤ) ≤ j) := by
  unfold pyGet
  by_cases h0 : 0 ≤ j
  · rw [if_pos h0, List.getElem?_eq_none_iff]
    omega
  · rw [if_neg h0]
    by_cases h1 : 0 ≤ j + l.length
    · rw [if_pos h1, List.getElem?_eq_none_iff]
      omega
    · rw [if_neg h1]
      constructor
      · intro _
        omega
      · intro _
        rfl

theorem full_filename_none_iff (i : ℤ) :
    full_filename i = none ↔ pyGet month_abbr (i + 1) = none := by
  unfold full_filename
  cases hp : pyGet month_abbr (i + 1) <;> simp [hp]

theorem keepRow_eq_true_iff (fractions : List (ℤ × ℚ)) (seed : ℕ)
    (p : ℕ × SRow) :
    keepRow fractions seed p = true ↔
      ∃ v f, p.2.2 = some v ∧ lookupFrac v fractions = some f ∧
        prand seed p.1 < f := by
  unfold keepRow
  rcases p with ⟨i, id, lab⟩
  cases lab with
  | none => simp
  | some v =>
    cases hl : lookupFrac v fractions with
    | none => simp [hl]
    | some f => simp [hl]

theorem lookupFrac_isSome_pair (v : ℤ) (a0 a1 : ℤ) (f0 f1 : ℚ)
    (h : (lookupFrac v [(a0, f0), (a1, f1)]).isSome = true) :
    v = a0 ∨ v = a1 := by
  by_cases h0 : v = a0
  · exact Or.inl h0
  · by_cases h1 : v = a1
    · exact Or.inr h1
    · simp [lookupFrac, h0, h1] at h

section ClaimProofs

attribute [local semireducible] Rat.mul Rat.inv Rat.sub Rat.add

/-- C1: for every period sequence whose labels lie in 0..1, the table
obtained by folding all periods through the Merge-Aggregate Accumulator
contains each identifier occurring in any period exactly once, carrying the
maximum (logical OR) of the labels of all its row occurrences and a
period_count equal to the total number of its row occurrences. -/
theorem merge_accumulator_correct (ps : List (List Row))
    (hlab : ∀ r ∈ allRows ps, r.2 ≤ 1) (id : Ident)
    (hid : 0 < rowCount (allRows ps) id) :
    ((foldPeriods ps).filter (fun e => e.1 == id))
        = [(id, maxLabel (allRows ps) id, rowCount (allRows ps) id)] ∧
      (maxLabel (allRows ps) id = 1 ↔
        ∃ r ∈ allRows ps, r.1 = id ∧ r.2 = 1) := by
  have hacc := foldPeriods_isAccum ps
  constructor
  · exact filter_key_eq_singleton _ hacc.nodupKeys _
      ((hacc.mem_iff id _ _).mpr ⟨hid, rfl, rfl⟩) id rfl
  · constructor
    · intro h1
      have hpos : 0 < (rowsFor (allRows ps) id).foldr max 0 := by
        unfold maxLabel at h1
        omega
      obtain ⟨x, hx, hxpos⟩ := (foldr_max_pos_iff _).mp hpos
      obtain ⟨r, hr, hrid, hrx⟩ := (mem_rowsFor _ _ _).mp hx
      refine ⟨r, hr, hrid, ?_⟩
      have := hlab r hr
      omega
    · rintro ⟨r, hr, hrid, hr2⟩
      have hx : (1 : ℕ) ∈ rowsFor (allRows ps) id :=
        (mem_rowsFor _ _ _).mpr ⟨r, hr, hrid, hr2⟩
      have hle := le_foldr_max _ _ hx
      have hub : (rowsFor (allRows ps) id).foldr max 0 ≤ 1 := by
        apply foldr_max_le
        intro x hxm
        obtain ⟨r2, hr2m, _, hr2x⟩ := (mem_rowsFor _ _ _).mp hxm
        have := hlab r2 hr2m
        omega
      unfold maxLabel
      omega

/-- Witness for C1: the three-period scenario, identifier A. -/
theorem merge_accumulator_correct_witness :
    ((foldPeriods scenarioPeriods).filter (fun e => e.1 == "A"))
      = [("A", 1, 3)] := by
  have h := merge_accumulator_correct scenarioPeriods (by decide) "A"
    (by decide)
  rw [h.1]
  decide

/-- C2 counterexample: on the three-period scenario with min_periods = 2,
the fraction computation returns a division error, not (1, 1) as claimed,
because both eligible identifiers are positive. -/
theorem scenario_fractions_counterexample :
    fracCalc (eligFilter (foldPeriods scenarioPeriods) 2) 2 (1 / 2) = none ∧
      fracCalc (eligFilter (foldPeriods scenarioPeriods) 2) 2 (1 / 2)
        ≠ some (1, 1) := by
  decide

/-- C2 (amended): the merged table and the eligible set are as the spec
states, but both eligible identifiers carry label 1, so n_positive = 2 and
n_total = 2, and the fraction computation fails with a division-by-zero
error on the negative class instead of producing f+ = f- = 1. -/
theorem scenario_end_to_end :
    (foldPeriods scenarioPeriods).Perm
        [("A", 1, 3), ("B", 1, 2), ("C", 0, 1)] ∧
      eligFilter (foldPeriods scenarioPeriods) 2
        = [("B", 1, 2), ("A", 1, 3)] ∧
      nTotal (eligFilter (foldPeriods scenarioPeriods) 2) = 2 ∧
      nPositive (eligFilter (foldPeriods scenarioPeriods) 2) = 2 ∧
      fracCalc (eligFilter (foldPeriods scenarioPeriods) 2) 2 (1 / 2)
        = none := by
  decide

/-- C3: for every table, the Sampling-Fraction Calculator returns exactly
(Ns p / N+, Ns (1 - p) / (N - N+)) when 0 < N+ and N+ < N, and fails with
a division error precisely when N+ = 0 or N = N+. -/
theorem fracCalc_spec (t : List Entry) (nSubIds : ℕ) (p : ℚ) :
    fracCalc t nSubIds p =
      if nPositive t = 0 ∨ nTotal t = nPositive t then none
      else some ((nSubIds : ℚ) * p / (nPositive t : ℚ),
        (nSubIds : ℚ) * (1 - p) / ((nTotal t : ℚ) - (nPositive t : ℚ))) := by
  unfold fracCalc pydiv
  by_cases hp : nPositive t = 0
  · rw [if_pos (Or.inl hp), hp]
    simp
  · have hp' : ((nPositive t : ℚ)) ≠ 0 := Nat.cast_ne_zero.mpr hp
    rw [if_neg hp']
    by_cases ht : nTotal t = nPositive t
    · have h0 : ((nTotal t : ℚ)) - ((nPositive t : ℚ)) = 0 := by
        rw [ht]
        ring
      rw [if_pos h0, if_pos (Or.inr ht)]
    · have hne : ((nTotal t : ℚ)) - ((nPositive t : ℚ)) ≠ 0 := by
        intro h0
        exact ht (by exact_mod_cast sub_eq_zero.mp h0)
      rw [if_neg hne, if_neg (by tauto)]

/-- C4 counterexample: one period in which identifier A occurs in two rows
yields period_count 2 although A appears in just one period. -/
theorem period_count_rows_counterexample :
    foldPeriods [[("A", 0), ("A", 0)]] = [("A", 0, 2)] ∧
      periodsContaining [[("A", 0), ("A", 0)]] "A" = 1 ∧ (2 : ℕ) ≠ 1 := by
  decide

/-- C4 (amended): period_count equals the total number of row occurrences
of the identifier; it coincides with the number of periods containing the
identifier exactly when every period file carries at most one row per
identifier. -/
theorem period_count_of_unique_rows (ps : List (List Row))
    (hone : ∀ p ∈ ps, ∀ id, rowCount p id ≤ 1)
    (id : Ident) (l c : ℕ) (hmem : (id, l, c) ∈ foldPeriods ps) :
    c = rowCount (allRows ps) id ∧ c = periodsContaining ps id := by
  have hacc := foldPeriods_isAccum ps
  have h1 := (hacc.mem_iff id l c).mp hmem
  refine ⟨h1.2.2, ?_⟩
  rw [h1.2.2,
    rowCount_eq_periodsContaining ps id (fun p hp => hone p hp id)]

/-- Witness for C4 on two single-row periods. -/
theorem period_count_of_unique_rows_witness :
    (2 : ℕ) = rowCount (allRows [[("A", 0)], [("A", 1)]]) "A" ∧
      (2 : ℕ) = periodsContaining [[("A", 0)], [("A", 1)]] "A" :=
  period_count_of_unique_rows [[("A", 0)], [("A", 1)]]
    (fun p hp id => by
      have hle := rowCount_le_length p id
      rcases List.mem_cons.mp hp with rfl | hp2
      · simpa using hle
      · rcases List.mem_cons.mp hp2 with rfl | hp3
        · simpa using hle
        · cases hp3)
    "A" 1 2 (by decide)

/-- C5: merge order-invariance: folding any two orderings of the same
multiset of periods produces the same final table (as an unordered
collection of entries). -/
theorem foldPeriods_order_invariant (ps qs : List (List Row))
    (h : ps.Perm qs) : (foldPeriods ps).Perm (foldPeriods qs) := by
  have h1 := foldPeriods_isAccum ps
  have h2 := foldPeriods_isAccum qs
  have hrows := allRows_perm h
  refine (List.perm_ext_iff_of_nodup (entries_nodup h1)
    (entries_nodup h2)).mpr ?_
  intro e
  rw [mem_foldPeriods, mem_foldPeriods, rowCount_perm hrows e.1,
    maxLabel_perm hrows e.1]

/-- Witness for C5: periods in order 1,2,3 versus 3,1,2. -/
theorem foldPeriods_order_invariant_witness :
    (foldPeriods scenarioPeriods).Perm
      (foldPeriods [period3, period1, period2]) :=
  foldPeriods_order_invariant _ _ (by decide)

/-- C6 counterexample: the unrecognized token maybe is coerced to null,
not to 0. -/
theorem coerce_label_counterexample :
    coerceLabel ("maybe") = none ∧ coerceLabel ("maybe") ≠ some 0 := by
  decide

/-- C6 (amended): recognized truthy tokens coerce to 1 and recognized
falsy tokens to 0, but every unrecognized token coerces to null; hence
every label entering the merge is 0, 1, or null. -/
theorem coerceLabel_cases (s : String) :
    (normToken s ∈ trueTokens → coerceLabel s = some 1) ∧
      (normToken s ∉ trueTokens → normToken s ∈ falseTokens →
        coerceLabel s = some 0) ∧
      (normToken s ∉ trueTokens → normToken s ∉ falseTokens →
        coerceLabel s = none) ∧
      (coerceLabel s = some 0 ∨ coerceLabel s = some 1 ∨
        coerceLabel s = none) := by
  unfold coerceLabel sparkStrToBool
  by_cases h1 : normToken s ∈ trueTokens
  · simp [h1]
  · by_cases h2 : normToken s ∈ falseTokens
    · simp [h1, h2]
    · simp [h1, h2]

/-- Witness for C6 at the token Y. -/
theorem coerceLabel_cases_witness : coerceLabel ("Y") = some 1 :=
  (coerceLabel_cases ("Y")).1 (by decide)

/-- C7 counterexample: index 12 lies inside the suffix table's domain (it
selects the entry Dec), yet full_filename 12 raises an IndexError because
of the internal shift to position 13. -/
theorem full_filename_domain_counterexample :
    pyGet month_abbr 12 = some ("Dec") ∧ full_filename 12 = none := by
  decide

/-- C7 (amended): full_filename is a pure mapping that fails precisely
when the shifted lookup position index + 1 falls outside the suffix
table's domain, that is, exactly for index < -14 or index > 11; on every
other index it returns the path composed of the directory, the filename
stem, the selected suffix and the extension. -/
theorem full_filename_domain (i : ℤ) :
    (full_filename i = none ↔ pyGet month_abbr (i + 1) = none) ∧
      (full_filename i = none ↔ (i < -14 ∨ 11 < i)) ∧
      (∀ s, pyGet month_abbr (i + 1) = some s →
        full_filename i = some (ospathJoin file_path
          (file_base ++ s ++ file_type))) := by
  refine ⟨full_filename_none_iff i, ?_, ?_⟩
  · rw [full_filename_none_iff i, pyGet_eq_none_iff, month_abbr_length]
    omega
  · intro s hs
    unfold full_filename
    rw [hs]
    rfl

/-- Witness for C7 at index 0 (the January file). -/
theorem full_filename_domain_witness :
    full_filename 0
      = some ("/project_data/data_asset/customers_Jan.csv") := by
  have h := (full_filename_domain 0).2.2 ("Jan") (by decide)
  rw [h]
  decide

/-- C8: the Stratified Sampler is deterministic: identical filtered table,
fraction mapping and seed always give an identical output set; in this
embedding the sampler is a pure function of exactly these three inputs. -/
theorem sampleBy_deterministic (t t' : List SRow) (fr fr' : List (ℤ × ℚ))
    (s s' : ℕ) (ht : t = t') (hf : fr = fr') (hs : s = s') :
    sampleBy t fr s = sampleBy t' fr' s' := by
  rw [ht, hf, hs]

/-- Witness for C8 on a one-row table. -/
theorem sampleBy_deterministic_witness :
    sampleBy [("A", some 1)] [(0, 1), (1, 1)] 123
      = sampleBy [("A", some 1)] [(0, 1), (1, 1)] 123 :=
  sampleBy_deterministic _ _ _ _ _ _ rfl rfl rfl

/-- C9: every row kept by the Stratified Sampler has a non-null label that
is a key of the fraction mapping; with the pipeline mapping on classes 0
and 1, output labels are 0 or 1 and null labels never appear. -/
theorem sampleBy_classes (t : List SRow) (fr : List (ℤ × ℚ)) (seed : ℕ)
    (r : SRow) (hr : r ∈ sampleBy t fr seed) :
    (∃ v, r.2 = some v ∧ (lookupFrac v fr).isSome = true) ∧
      (∀ fNeg fPos, fr = [(0, fNeg), (1, fPos)] →
        r.2 = some 0 ∨ r.2 = some 1) := by
  unfold sampleBy at hr
  rcases List.mem_map.mp hr with ⟨p, hp, rfl⟩
  have hkeep := (List.mem_filter.mp hp).2
  obtain ⟨v, f, hv, hl, _⟩ := (keepRow_eq_true_iff fr seed p).mp hkeep
  constructor
  · exact ⟨v, hv, by rw [hl]; rfl⟩
  · intro fNeg fPos hfr
    subst hfr
    rcases lookupFrac_isSome_pair v 0 1 fNeg fPos (by rw [hl]; rfl) with
      h0 | h1
    · exact Or.inl (by rw [hv, h0])
    · exact Or.inr (by rw [hv, h1])

/-- Witness for C9 on a one-row table with the pipeline mapping. -/
theorem sampleBy_classes_witness :
    ∃ v, (("A", some 1) : SRow).2 = some v ∧
      (lookupFrac v [((0 : ℤ), (1 : ℚ)), (1, 1)]).isSome = true :=
  (sampleBy_classes [("A", some 1)] [(0, 1), (1, 1)] 123 ("A", some 1)
    (by decide)).1

/-- C10: the 0-based period index selects the index + 1 entry of the
suffix table, so index 0 selects Jan and never the table's first entry,
and every negative index from -13 to -1 returns a path via negative
indexing instead of failing. -/
theorem full_filename_shifted (i : ℤ) :
    (0 ≤ i → i ≤ 11 → full_filename i = some (ospathJoin file_path
        (file_base ++ List.getD month_abbr ((i + 1).toNat) ("")
          ++ file_type))) ∧
      full_filename 0 ≠ some (ospathJoin file_path
        (file_base ++ List.getD month_abbr 0 ("") ++ file_type)) ∧
      (-13 ≤ i → i ≤ -1 → ∃ s, full_filename i = some s) := by
  refine ⟨?_, ?_, ?_⟩
  · intro h0 h11
    interval_cases i <;> decide
  · decide
  · intro hlo hhi
    interval_cases i <;> exact ⟨_, rfl⟩

/-- Witness for C10 at index 2 (the March file). -/
theorem full_filename_shifted_witness :
    full_filename 2
      = some ("/project_data/data_asset/customers_Mar.csv") := by
  have h := (full_filename_shifted 2).1 (by decide) (by decide)
  rw [h]
  decide

end ClaimProofs

end BigChurn
